import Mathlib

/-!
Shallow embedding of the django-mongodb backend: BSON-like values, the
per-lookup operator mapping, the query compiler, embedded-model fields
and the vector-search index checks, with theorems about their behaviour.
-/

/-- BSON-like values: the documents and expressions the backend builds. -/
inductive BVal where
  | null
  | bool (b : Bool)
  | int (n : Int)
  | str (s : String)
  | arr (elems : List BVal)
  | doc (pairs : List (String × BVal))

/-- Truth of the Python test `value is None` on an embedded value. -/
def BVal.isNull : BVal → Bool
  | BVal.null => true
  | _ => false

/-- Local `is_null` document of `DatabaseWrapper._isnull_operator`
(base.py lines 87-94): the path is missing or the value equals None. -/
def is_null_disjunction (a : BVal) : BVal :=
  BVal.doc [("$or", BVal.arr [
    BVal.doc [("$eq", BVal.arr [BVal.doc [("$type", a)], BVal.str ("missing")])],
    BVal.doc [("$eq", BVal.arr [a, BVal.null])]])]

/-- `DatabaseWrapper._isnull_operator` (base.py lines 86-95). -/
def _isnull_operator (a : BVal) (b : Bool) : BVal :=
  if b then is_null_disjunction a else BVal.doc [("$not", is_null_disjunction a)]

/-- The `range` entry of `DatabaseWrapper.mongo_operators` (base.py line 105). -/
def mongo_operators_range (a : BVal) (b : BVal × BVal) : BVal :=
  BVal.doc [("$and", BVal.arr [
    BVal.doc [("$gte", BVal.arr [a, b.1])],
    BVal.doc [("$lte", BVal.arr [a, b.2])]])]

/-- Classification of one query annotation value, as `check_query` needs it:
a `Count` aggregate, an `Aggregate` that is not `Count`, or a non-aggregate
expression. -/
inductive AnnKind where
  | countAgg
  | aggregateNotCount
  | nonAggregate
deriving DecidableEq

/-- Result of `expression.as_mql` for an ordering column: a string path
(such as `$field`) or a dict expression. -/
inductive ColMql where
  | str (s : String)
  | dict
deriving DecidableEq

/-- One term of a query ordering as `_get_ordering` iterates over it:
the string `?`, an expression with a resolved `descending` flag and its
`as_mql` column, or an ordering name string (possibly `-`-prefixed)
together with the `as_mql` column it resolves to via
`find_ordering_name`. -/
inductive OrderTerm where
  | random
  | expr (descending : Bool) (col : ColMql)
  | name (s : String) (col : ColMql)
deriving DecidableEq

/-- Outcome of `self.query.where.as_mql(self, self.connection)`: an MQL
expression, or one of the `FullResultSet` / `EmptyResultSet` signals. -/
inductive WhereMql where
  | mql (e : BVal)
  | fullResultSet
  | emptyResultSet

/-- Errors a compiler method may raise: `NotSupportedError` with a message,
or the propagated `EmptyResultSet` signal. -/
inductive CompilerError where
  | notSupported (msg : String)
  | emptyResultSet
deriving DecidableEq

/-- The state of `self.query` that `check_query`, `_get_ordering` and
`build_query` read: the `distinct` flags, `extra` keys, annotation kinds,
the WHERE tree translation, the lookup pipeline, and the ordering data. -/
structure Query where
  distinct : Bool
  inner_query_distinct : Bool
  extra : List String
  annKinds : List (String × AnnKind)
  whereMql : WhereMql
  lookup_pipeline : List BVal
  default_ordering : Bool
  order_by : List OrderTerm
  meta_ordering : List OrderTerm
  standard_ordering : Bool

/-- `SQLCompiler.check_query` (compiler.py lines 120-146). -/
def check_query (q : Query) : Except CompilerError Unit :=
  if q.distinct || q.inner_query_distinct then
    if (q.annKinds.map Prod.fst).contains ("datetimefield") then
      Except.error (CompilerError.notSupported ("QuerySet.datetimes() is not supported on MongoDB."))
    else if (q.annKinds.map Prod.fst).contains ("datefield") then
      Except.error (CompilerError.notSupported ("QuerySet.dates() is not supported on MongoDB."))
    else
      Except.error (CompilerError.notSupported ("QuerySet.distinct() is not supported on MongoDB."))
  else if !q.extra.isEmpty then
    if q.extra.any (fun key => key.startsWith ("_prefetch_related_")) then
      Except.error (CompilerError.notSupported ("QuerySet.prefetch_related() is not supported on MongoDB."))
    else
      Except.error (CompilerError.notSupported ("QuerySet.extra() is not supported on MongoDB."))
  else if q.annKinds.any (fun p => p.2 == AnnKind.aggregateNotCount) then
    Except.error (CompilerError.notSupported ("QuerySet.aggregate() is not supported on MongoDB."))
  else
    Except.ok ()

/-- The `ordering` local of `_get_ordering` (compiler.py lines 226-230):
`self.query.order_by or opts.ordering if self.query.default_ordering else
self.query.order_by`. -/
def selected_ordering (q : Query) : List OrderTerm :=
  if q.default_ordering then
    (if q.order_by.isEmpty then q.meta_ordering else q.order_by)
  else q.order_by

/-- Resolution of one ordering term inside the `_get_ordering` loop
(compiler.py lines 236-252) to its column and `ascending` flag. The
name branch follows the host framework's `get_order_dir`: with default
direction DESC (used exactly when `standard_ordering` is reversed) a
`-`-prefixed name orders ascending and a plain name descending. -/
def resolve_order_term (standard : Bool) (t : OrderTerm) : Except CompilerError (ColMql × Bool) :=
  match t with
  | OrderTerm.random =>
    Except.error (CompilerError.notSupported ("Randomized ordering is not supported by MongoDB."))
  | OrderTerm.expr descending col =>
    let ascending := !descending
    Except.ok (col, if standard then ascending else !ascending)
  | OrderTerm.name s col =>
    let defaultDescending := !standard
    let descending := if s.startsWith ("-") then !defaultDescending else defaultDescending
    Except.ok (col, !descending)

/-- `column.removeprefix("$")` (compiler.py line 257): drop one leading
dollar sign when present. -/
def strip_dollar (s : String) : String :=
  match s.data with
  | c :: rest => if c = '$' then String.mk rest else s
  | [] => s

/-- The accumulation loop of `_get_ordering` (compiler.py lines 234-261),
with `seen` playing the role of `columns_seen`. -/
def ordering_loop (standard : Bool) :
    List OrderTerm → List String → Except CompilerError (List (String × Bool))
  | [], _ => Except.ok []
  | t :: rest, seen =>
    match resolve_order_term standard t with
    | Except.error e => Except.error e
    | Except.ok (col, ascending) =>
      match col with
      | ColMql.dict =>
        Except.error (CompilerError.notSupported ("order_by() expression not supported."))
      | ColMql.str s =>
        let column := strip_dollar s
        if column ∈ seen then ordering_loop standard rest seen
        else
          match ordering_loop standard rest (column :: seen) with
          | Except.error e => Except.error e
          | Except.ok tail => Except.ok ((column, ascending) :: tail)

/-- The same loop without the `columns_seen` deduplication: the raw list of
resolved `(stripped column, ascending)` pairs. -/
def resolve_all (standard : Bool) : List OrderTerm → Except CompilerError (List (String × Bool))
  | [] => Except.ok []
  | t :: rest =>
    match resolve_order_term standard t with
    | Except.error e => Except.error e
    | Except.ok (col, ascending) =>
      match col with
      | ColMql.dict =>
        Except.error (CompilerError.notSupported ("order_by() expression not supported."))
      | ColMql.str s =>
        match resolve_all standard rest with
        | Except.error e => Except.error e
        | Except.ok tail => Except.ok ((strip_dollar s, ascending) :: tail)

/-- First-occurrence deduplication on the column component. -/
def dedup_first : List (String × Bool) → List String → List (String × Bool)
  | [], _ => []
  | p :: rest, seen =>
    if p.1 ∈ seen then dedup_first rest seen
    else p :: dedup_first rest (p.1 :: seen)

/-- Result of `_get_ordering`: the bare `standard_ordering` flag when there
is no field ordering (for `$natural` ordering), or the column list. -/
inductive OrderingResult where
  | natural (standard : Bool)
  | columns (pairs : List (String × Bool))

/-- `SQLCompiler._get_ordering` (compiler.py lines 218-262). -/
def _get_ordering (q : Query) : Except CompilerError OrderingResult :=
  let ordering := selected_ordering q
  if ordering.isEmpty then Except.ok (OrderingResult.natural q.standard_ordering)
  else
    match ordering_loop q.standard_ordering ordering [] with
    | Except.error e => Except.error e
    | Except.ok pairs => Except.ok (OrderingResult.columns pairs)

/-- The `MongoQuery` fields that `build_query` fills in. -/
structure MongoQuery where
  lookup_pipeline : List BVal
  mongo_query : BVal
  ordering : OrderingResult

/-- `SQLCompiler.build_query` (compiler.py lines 170-180): run
`check_query`, build the `$expr` filter document from the WHERE tree
(catching `FullResultSet` as the empty document and letting
`EmptyResultSet` propagate), and attach the ordering. -/
def build_query (q : Query) : Except CompilerError MongoQuery :=
  match check_query q with
  | Except.error e => Except.error e
  | Except.ok _ =>
    match
      (match q.whereMql with
       | WhereMql.mql e => Except.ok (BVal.doc [("$expr", e)])
       | WhereMql.fullResultSet => Except.ok (BVal.doc [])
       | WhereMql.emptyResultSet => Except.error CompilerError.emptyResultSet) with
    | Except.error e => Except.error e
    | Except.ok filterDoc =>
      match _get_ordering q with
      | Except.error e => Except.error e
      | Except.ok ob =>
        Except.ok { lookup_pipeline := q.lookup_pipeline, mongo_query := filterDoc, ordering := ob }

/-- One column of `get_columns` output as `_make_result` reads it: the
target name and the `alias` attribute of the underlying expression
(absent for expressions without one). -/
structure MRCol where
  name : String
  alias_opt : Option String
deriving DecidableEq

/-- Python `dict.get`: first binding for the key, if any. -/
def doc_get (pairs : List (String × BVal)) (key : String) : Option BVal :=
  pairs.lookup key

/-- `SQLCompiler._make_result` (compiler.py lines 90-108): decode the
values for the given columns from a database entity, reading through the
related-object sub-document when the column carries a foreign alias. -/
def _make_result (collection_name : String) (entity : List (String × BVal))
    (columns : List MRCol) : List (Option BVal) :=
  columns.map (fun c =>
    let obj :=
      match c.alias_opt with
      | some a =>
        if a ≠ collection_name then
          (match doc_get entity a with
           | some (BVal.doc pairs) => pairs
           | _ => [])
        else entity
      | none => entity
    doc_get obj c.name)

/-- The loop of `SQLCompiler.cursor_iter` (compiler.py lines 110-118),
with the pending `chunk` made explicit. After the loop the pending chunk
is always yielded, even when empty. -/
def cursor_iter_aux (collection_name : String) (columns : List MRCol) :
    List (List (String × BVal)) → List (List (Option BVal)) → Nat →
    List (List (List (Option BVal)))
  | [], chunk, _ => [chunk]
  | row :: rest, chunk, chunk_size =>
    let chunk2 := chunk ++ [_make_result collection_name row columns]
    if chunk2.length = chunk_size then
      chunk2 :: cursor_iter_aux collection_name columns rest [] chunk_size
    else
      cursor_iter_aux collection_name columns rest chunk2 chunk_size

/-- `SQLCompiler.cursor_iter` (compiler.py lines 110-118): yield chunks of
decoded results from the cursor. -/
def cursor_iter (collection_name : String) (cursor : List (List (String × BVal)))
    (chunk_size : Nat) (columns : List MRCol) : List (List (List (Option BVal))) :=
  cursor_iter_aux collection_name columns cursor [] chunk_size

/-- A field as `SQLInsertCompiler.execute_sql` reads it. -/
structure InsertField where
  name : String
  column : String
  null : Bool
  primary_key : Bool
deriving DecidableEq

/-- The database-prepared value of a field for one object: the composite
`field.get_db_prep_save(getattr/pre_save(...), connection)` of
compiler.py lines 287-292, modelled as a per-object table keyed by the
field column (absent entries prepare to None). -/
def prep_value (obj : List (String × BVal)) (f : InsertField) : BVal :=
  match obj.lookup f.column with
  | some v => v
  | none => BVal.null

/-- The inner field loop of `SQLInsertCompiler.execute_sql` (compiler.py
lines 286-298): build `field_values` for one object, raising
`IntegrityError` (carrying the field name) on a None value for a field
that is neither nullable nor the primary key. -/
def insert_field_values (fields : List InsertField) (obj : List (String × BVal)) :
    Except String (List (String × BVal)) :=
  match fields with
  | [] => Except.ok []
  | f :: rest =>
    let value := prep_value obj f
    if value.isNull && !f.null && !f.primary_key then
      Except.error f.name
    else
      match insert_field_values rest obj with
      | Except.error e => Except.error e
      | Except.ok tail => Except.ok ((f.column, value) :: tail)

/-- `SQLInsertCompiler.execute_sql` (compiler.py lines 281-300): build one
document per object; only when every document builds without an
`IntegrityError` is the resulting list handed to `insert` (the driver
call). -/
def insert_execute_sql (fields : List InsertField) (objs : List (List (String × BVal))) :
    Except String (List (List (String × BVal))) :=
  match objs with
  | [] => Except.ok []
  | obj :: rest =>
    match insert_field_values fields obj with
    | Except.error e => Except.error e
    | Except.ok document =>
      match insert_execute_sql fields rest with
      | Except.error e => Except.error e
      | Except.ok docs => Except.ok (document :: docs)

/-- One `KeyTransform` of a transform chain (embedded_model.py lines
141-159): its key name and whether its `ref_field` is an
`EmbeddedModelField`. Chains are listed in application order (innermost
transform first); `preprocess_lhs` walks the chain from the outside in
and inserts each key at position 0, which yields exactly this order. -/
structure KeyT where
  key_name : String
  ref_is_embedded : Bool
deriving DecidableEq

/-- `KeyTransform.preprocess_lhs` (embedded_model.py lines 161-173): split
the chain keys by the class of their `ref_field`, keeping application
order, then move the first non-embedded key onto the embedded list
(`embedded_key_transforms.append(json_key_transforms.pop(0))`). The
`pop(0)` raises `IndexError` when every key is embedded, hence `none`. -/
def preprocess_lhs (mql : String) (chain : List KeyT) :
    Option (String × List String × List String) :=
  let embedded_key_transforms := (chain.filter (fun t => t.ref_is_embedded)).map (fun t => t.key_name)
  let json_key_transforms := (chain.filter (fun t => !t.ref_is_embedded)).map (fun t => t.key_name)
  match json_key_transforms with
  | [] => none
  | j :: rest => some (mql, embedded_key_transforms ++ [j], rest)

/-- Decimal value of an all-digit key, the `int(key)` of the source. -/
def digits_to_nat (cs : List Char) : Nat :=
  cs.foldl (fun n c => n * 10 + (c.toNat - 48)) 0

/-- The test `key.isdigit() and str(int(key)) == key` of embedded_model.py
line 184: the key is non-empty, all digits, and has no leading zero
(except the single key `0` itself), i.e. it round-trips through `int`. -/
def is_canonical_digits (key : String) : Bool :=
  !key.data.isEmpty && key.data.all Char.isDigit &&
    (key.data == ['0'] || key.data.head? != some '0')

/-- One step of the `for key in json_key_transforms` loop of
`key_transform` (embedded_model.py lines 180-193): wrap the running
result in `$getField`, or in the array-aware `$cond` when the key is a
canonical decimal number. -/
def wrap_json_key (result : BVal) (key : String) : BVal :=
  let get_field := BVal.doc [("$getField", BVal.doc [("input", result), ("field", BVal.str key)])]
  if is_canonical_digits key then
    BVal.doc [("$cond", BVal.doc [
      ("if", BVal.doc [("$isArray", result)]),
      ("then", BVal.doc [("$arrayElemAt",
        BVal.arr [result, BVal.int (Int.ofNat (digits_to_nat key.data))])]),
      ("else", get_field)])]
  else get_field

/-- `key_transform` (embedded_model.py lines 176-194): dotted path of the
column MQL and the embedded keys, then the JSON key wrapping. -/
def key_transform (mql : String) (chain : List KeyT) : Option BVal :=
  match preprocess_lhs mql chain with
  | none => none
  | some (m, key_transforms, json_key_transforms) =>
    let transforms := String.intercalate (".") key_transforms
    let result := BVal.str (m ++ "." ++ transforms)
    some (json_key_transforms.foldl wrap_json_key result)

/-- A field of the embedded model class, as `EmbeddedModelField` calls it:
its attribute name, primary-key flag, `pre_save` (the default reads the
instance attribute; the `add` flag is passed through), `get_db_prep_save`
and `to_python`. -/
structure EField where
  attname : String
  primary_key : Bool
  pre_save : BVal → Bool → BVal
  get_db_prep_save : BVal → BVal
  to_python : BVal → BVal

/-- An embedded model instance: its set attributes and the
`_state.adding` flag. -/
structure EInstance where
  attrs : List (String × BVal)
  adding : Bool

/-- Attribute read used by a default `pre_save` (missing attributes read
as None, the value an unset field holds after model construction). -/
def getattr_value (attrs : List (String × BVal)) (attname : String) : BVal :=
  match attrs.lookup attname with
  | some v => v
  | none => BVal.null

/-- The value `field.pre_save(embedded_instance, add)` hands to
`field.get_db_prep_save` for one embedded field. -/
def saved_value (f : EField) (inst : EInstance) : BVal :=
  f.pre_save (getattr_value inst.attrs f.attname) inst.adding

namespace EmbeddedModelField

/-- `EmbeddedModelField.to_python` (embedded_model.py lines 57-77): None
passes through; a document is turned into an embedded-model instance by
passing each stored value through the field's `to_python`, leaving fields
absent from the document unset, and marking the instance as not adding. -/
def to_python (em : List EField) (value : Option (List (String × BVal))) : Option EInstance :=
  match value with
  | none => none
  | some document =>
    some {
      attrs := em.filterMap (fun f =>
        match document.lookup f.attname with
        | some v => some (f.attname, f.to_python v)
        | none => none),
      adding := false }

/-- `EmbeddedModelField.get_db_prep_save` (embedded_model.py lines
79-113): None maps to None; otherwise build the attname-to-prepared-value
document through each field's `pre_save` and `get_db_prep_save`, skipping
a primary key whose prepared value is None, and finally set the
instance's `_state.adding` to False. Returned as (document, instance
state after the call). -/
def get_db_prep_save (em : List EField) (embedded_instance : Option EInstance) :
    Option (List (String × BVal)) × Option EInstance :=
  match embedded_instance with
  | none => (none, none)
  | some inst =>
    let add := inst.adding
    let field_values := em.filterMap (fun f =>
      let value := f.get_db_prep_save (f.pre_save (getattr_value inst.attrs f.attname) add)
      if f.primary_key && value.isNull then none
      else some (f.attname, value))
    (some field_values, some { inst with adding := false })

end EmbeddedModelField

/-- An index on a checked model, as `check_vector_search_indexes` reads
it: whether it is a `VectorSearchIndex` instance, and the errors its
`check(model, connection)` returns per database alias. -/
structure VSearchIndex where
  is_vector_search : Bool
  check : String → List String

/-- A model visited by the check: its list of Meta indexes. -/
structure CheckedModel where
  indexes : List VSearchIndex

/-- `check_vector_search_indexes` (checks.py lines 10-26): for each
checked model and each database where the router allows migrating it,
extend the errors with the check results of every `VectorSearchIndex`
among the model's indexes. -/
def check_vector_search_indexes (models : List CheckedModel) (databases : List String)
    (allow_migrate_model : String → CheckedModel → Bool) : List String :=
  (models.map (fun model =>
    (databases.map (fun db =>
      if allow_migrate_model db model then
        ((model.indexes.filter (fun i => i.is_vector_search)).map (fun i => i.check db)).flatten
      else [])).flatten)).flatten

/-! ## Theorems -/

theorem BVal.isNull_iff (v : BVal) : v.isNull = true ↔ v = BVal.null := by
  cases v <;> simp [BVal.isNull]

/-- C5: the per-lookup operator mapping sends `range` to the conjunction
of a lower-bound `$gte` against the first bound and an upper-bound `$lte`
against the second bound, and sends `isnull` to the disjunction
"path type is missing or value equals None" when the flag is true and to
the `$not` of that disjunction when the flag is false. -/
theorem range_isnull_operator_spec (a : BVal) (b : BVal × BVal) :
    mongo_operators_range a b =
      BVal.doc [("$and", BVal.arr [
        BVal.doc [("$gte", BVal.arr [a, b.1])],
        BVal.doc [("$lte", BVal.arr [a, b.2])]])] ∧
    _isnull_operator a true =
      BVal.doc [("$or", BVal.arr [
        BVal.doc [("$eq", BVal.arr [BVal.doc [("$type", a)], BVal.str ("missing")])],
        BVal.doc [("$eq", BVal.arr [a, BVal.null])]])] ∧
    _isnull_operator a false =
      BVal.doc [("$not", BVal.doc [("$or", BVal.arr [
        BVal.doc [("$eq", BVal.arr [BVal.doc [("$type", a)], BVal.str ("missing")])],
        BVal.doc [("$eq", BVal.arr [a, BVal.null])]])])] :=
  ⟨rfl, rfl, rfl⟩

/-- C1: for every query accepted by `check_query` for which `build_query`
returns a MongoQuery, its `mongo_query` field is the single-key document
binding `$expr` to the MQL translation of the WHERE tree, and it is the
empty document exactly when the WHERE translation signals a full result
set. -/
theorem build_query_expr_document (q : Query) (mq : MongoQuery)
    (hc : check_query q = Except.ok ())
    (hb : build_query q = Except.ok mq) :
    (∀ e, q.whereMql = WhereMql.mql e → mq.mongo_query = BVal.doc [("$expr", e)]) ∧
    (mq.mongo_query = BVal.doc [] ↔ q.whereMql = WhereMql.fullResultSet) := by
  unfold build_query at hb
  rw [hc] at hb
  cases hw : q.whereMql <;> rw [hw] at hb
  case mql e =>
    cases ho : _get_ordering q <;> rw [ho] at hb
    · exact absurd hb (by simp)
    · simp only [Except.ok.injEq] at hb
      subst hb
      simp [hw]
  case fullResultSet =>
    cases ho : _get_ordering q <;> rw [ho] at hb
    · exact absurd hb (by simp)
    · simp only [Except.ok.injEq] at hb
      subst hb
      simp [hw]
  case emptyResultSet =>
    simp at hb

/-- Witness for C1 at a concrete query with WHERE translation `5`. -/
theorem build_query_expr_document_witness :
    (MongoQuery.mk [] (BVal.doc [("$expr", BVal.int 5)]) (OrderingResult.natural true)).mongo_query
      = BVal.doc [("$expr", BVal.int 5)] :=
  (build_query_expr_document
    ⟨false, false, [], [], WhereMql.mql (BVal.int 5), [], true, [], [], true⟩
    ⟨[], BVal.doc [("$expr", BVal.int 5)], OrderingResult.natural true⟩
    rfl rfl).1 (BVal.int 5) rfl

/-- C3: `check_query` raises NotSupportedError iff the query uses
distinct (directly or on its inner query), uses extra, or has an
annotation that is an Aggregate other than Count; when none of these
hold it returns normally. -/
theorem check_query_not_supported_iff (q : Query) :
    ((q.distinct = true ∨ q.inner_query_distinct = true ∨ q.extra ≠ [] ∨
        ∃ p ∈ q.annKinds, p.2 = AnnKind.aggregateNotCount) →
      ∃ msg, check_query q = Except.error (CompilerError.notSupported msg)) ∧
    (¬(q.distinct = true ∨ q.inner_query_distinct = true ∨ q.extra ≠ [] ∨
        ∃ p ∈ q.annKinds, p.2 = AnnKind.aggregateNotCount) →
      check_query q = Except.ok ()) := by
  have hsplit : (∃ msg, check_query q = Except.error (CompilerError.notSupported msg)) ∨
      check_query q = Except.ok () := by
    unfold check_query
    split_ifs <;> first | exact Or.inl ⟨_, rfl⟩ | exact Or.inr rfl
  have hrev : check_query q = Except.ok () →
      q.distinct = false ∧ q.inner_query_distinct = false ∧ q.extra = [] ∧
        ∀ p ∈ q.annKinds, p.2 ≠ AnnKind.aggregateNotCount := by
    intro hok2
    by_cases h1 : (q.distinct || q.inner_query_distinct) = true
    · unfold check_query at hok2
      rw [if_pos h1] at hok2
      split_ifs at hok2
    · by_cases h4 : (!q.extra.isEmpty) = true
      · unfold check_query at hok2
        rw [if_neg h1, if_pos h4] at hok2
        split_ifs at hok2
      · by_cases h6 : (q.annKinds.any fun p => p.2 == AnnKind.aggregateNotCount) = true
        · unfold check_query at hok2
          rw [if_neg h1, if_neg h4, if_pos h6] at hok2
          simp at hok2
        · simp only [Bool.or_eq_true, not_or, Bool.not_eq_true] at h1
          simp only [Bool.not_eq_true, Bool.not_eq_false', List.isEmpty_iff] at h4
          simp only [List.any_eq_true, not_exists, not_and, Bool.not_eq_true] at h6
          refine ⟨h1.1, h1.2, h4, ?_⟩
          intro p hp hk
          have := h6 p hp
          rw [hk] at this
          simp at this
  constructor
  · intro h
    rcases hsplit with ⟨msg, hm⟩ | hok2
    · exact ⟨msg, hm⟩
    · obtain ⟨hd, hi, he, ha⟩ := hrev hok2
      rcases h with h | h | h | ⟨p, hp, hk⟩
      · rw [hd] at h; cases h
      · rw [hi] at h; cases h
      · exact absurd he h
      · exact absurd hk (ha p hp)
  · intro hn
    rcases hsplit with ⟨msg, hm⟩ | hok2
    · exfalso
      apply hn
      unfold check_query at hm
      by_cases h1 : (q.distinct || q.inner_query_distinct) = true
      · rcases Bool.or_eq_true_iff.mp h1 with h | h
        · exact Or.inl h
        · exact Or.inr (Or.inl h)
      · rw [if_neg h1] at hm
        by_cases h4 : (!q.extra.isEmpty) = true
        · refine Or.inr (Or.inr (Or.inl ?_))
          simp only [Bool.not_eq_true', Bool.not_eq_false] at h4
          intro hnil
          rw [hnil] at h4
          simp at h4
        · rw [if_neg h4] at hm
          by_cases h6 : (q.annKinds.any fun p => p.2 == AnnKind.aggregateNotCount) = true
          · refine Or.inr (Or.inr (Or.inr ?_))
            simp only [List.any_eq_true] at h6
            obtain ⟨p, hp, hk⟩ := h6
            exact ⟨p, hp, by simpa using hk⟩
          · rw [if_neg h6] at hm
            simp at hm
    · exact hok2

/-- Witness for C3: a distinct query is rejected and a plain query is
accepted. -/
theorem check_query_not_supported_iff_witness :
    (∃ msg, check_query ⟨true, false, [], [], WhereMql.fullResultSet, [], true, [], [], true⟩
      = Except.error (CompilerError.notSupported msg)) ∧
    check_query ⟨false, false, [], [], WhereMql.fullResultSet, [], true, [], [], true⟩
      = Except.ok () :=
  ⟨(check_query_not_supported_iff
      ⟨true, false, [], [], WhereMql.fullResultSet, [], true, [], [], true⟩).1 (Or.inl rfl),
   (check_query_not_supported_iff
      ⟨false, false, [], [], WhereMql.fullResultSet, [], true, [], [], true⟩).2 (by simp)⟩

/-- C9 counterexample: `EmbeddedModelField.get_db_prep_save` does change
the input instance's state: an instance with `_state.adding = True` comes
out with `_state.adding = False`. -/
theorem emf_get_db_prep_save_mutates_state :
    (EmbeddedModelField.get_db_prep_save [] (some ⟨[], true⟩)).2 ≠ some ⟨[], true⟩ := by
  simp [EmbeddedModelField.get_db_prep_save]

/-- C9 as amended: the translation builds and returns the document as a
pure function of the fields and the instance, retaining no state; the
input instance's attributes are unchanged, and the only state change is
that `_state.adding` is set to False. -/
theorem emf_get_db_prep_save_frame (em : List EField) (inst : EInstance) :
    EmbeddedModelField.get_db_prep_save em (some inst) =
      (some (em.filterMap (fun f =>
        let value := f.get_db_prep_save (saved_value f inst)
        if f.primary_key && value.isNull then none
        else some (f.attname, value))),
       some { attrs := inst.attrs, adding := false }) ∧
    EmbeddedModelField.get_db_prep_save em none = (none, none) :=
  ⟨rfl, rfl⟩

theorem insert_field_values_ok (obj : List (String × BVal)) (fields : List InsertField)
    (h : ∀ f ∈ fields, ¬(prep_value obj f = BVal.null ∧ f.null = false ∧ f.primary_key = false)) :
    insert_field_values fields obj =
      Except.ok (fields.map (fun f => (f.column, prep_value obj f))) := by
  induction fields with
  | nil => rfl
  | cons f rest ih =>
    have hf := h f (List.mem_cons_self f rest)
    have hcond : ((prep_value obj f).isNull && !f.null && !f.primary_key) = false := by
      by_contra hc
      rw [Bool.not_eq_false] at hc
      simp only [Bool.and_eq_true, Bool.not_eq_true', BVal.isNull_iff] at hc
      exact hf ⟨hc.1.1, hc.1.2, hc.2⟩
    have ihr := ih (fun g hg => h g (List.mem_cons_of_mem f hg))
    simp only [insert_field_values, hcond, Bool.false_eq_true, if_false, ihr, List.map_cons]

theorem insert_field_values_error (obj : List (String × BVal)) (fields : List InsertField)
    (h : ∃ f ∈ fields, prep_value obj f = BVal.null ∧ f.null = false ∧ f.primary_key = false) :
    ∃ e, insert_field_values fields obj = Except.error e := by
  induction fields with
  | nil => simp at h
  | cons f rest ih =>
    by_cases hc : ((prep_value obj f).isNull && !f.null && !f.primary_key) = true
    · exact ⟨f.name, by simp only [insert_field_values, hc, if_true]⟩
    · have hrest : ∃ g ∈ rest, prep_value obj g = BVal.null ∧ g.null = false ∧ g.primary_key = false := by
        obtain ⟨g, hg, hgc⟩ := h
        rcases List.mem_cons.mp hg with rfl | hg2
        · exfalso
          apply hc
          simp only [Bool.and_eq_true, Bool.not_eq_true', BVal.isNull_iff]
          exact ⟨⟨hgc.1, hgc.2.1⟩, hgc.2.2⟩
        · exact ⟨g, hg2, hgc⟩
      obtain ⟨e, he⟩ := ih hrest
      refine ⟨e, ?_⟩
      simp only [insert_field_values, Bool.not_eq_true] at hc ⊢
      rw [hc]
      simp only [Bool.false_eq_true, if_false, he]

theorem insert_execute_sql_ok_length (fields : List InsertField)
    (objs : List (List (String × BVal))) (docs : List (List (String × BVal))) :
    insert_execute_sql fields objs = Except.ok docs → docs.length = objs.length := by
  induction objs generalizing docs with
  | nil =>
    intro h
    simp only [insert_execute_sql, Except.ok.injEq] at h
    subst h
    rfl
  | cons obj rest ih =>
    intro h
    simp only [insert_execute_sql] at h
    cases hfv : insert_field_values fields obj <;> rw [hfv] at h
    · exact absurd h (by simp)
    · cases hrest : insert_execute_sql fields rest <;> rw [hrest] at h
      · exact absurd h (by simp)
      · simp only [Except.ok.injEq] at h
        subst h
        simp [ih _ hrest]

/-- C2: if some field's database-prepared value is None and the field is
neither nullable nor the primary key, the insert raises IntegrityError
and no documents reach the driver; if no field of any object has such a
None value, nothing is raised and exactly one document per object is
handed to the driver. -/
theorem insert_execute_sql_integrity (fields : List InsertField)
    (objs : List (List (String × BVal))) :
    ((∃ o ∈ objs, ∃ f ∈ fields,
        prep_value o f = BVal.null ∧ f.null = false ∧ f.primary_key = false) →
      ∃ e, insert_execute_sql fields objs = Except.error e) ∧
    ((∀ o ∈ objs, ∀ f ∈ fields,
        ¬(prep_value o f = BVal.null ∧ f.null = false ∧ f.primary_key = false)) →
      insert_execute_sql fields objs =
        Except.ok (objs.map (fun o => fields.map (fun f => (f.column, prep_value o f))))) ∧
    (∀ docs, insert_execute_sql fields objs = Except.ok docs → docs.length = objs.length) := by
  refine ⟨?_, ?_, insert_execute_sql_ok_length fields objs⟩
  · intro h
    induction objs with
    | nil => simp at h
    | cons obj rest ih =>
      rcases h with ⟨o, ho, hf⟩
      rcases List.mem_cons.mp ho with rfl | ho2
      · obtain ⟨e, he⟩ := insert_field_values_error o fields hf
        exact ⟨e, by simp only [insert_execute_sql, he]⟩
      · obtain ⟨e, he⟩ := ih ⟨o, ho2, hf⟩
        cases hfv : insert_field_values fields obj with
        | error e2 => exact ⟨e2, by simp only [insert_execute_sql, hfv]⟩
        | ok doc2 => exact ⟨e, by simp only [insert_execute_sql, hfv, he]⟩
  · intro h
    induction objs with
    | nil => rfl
    | cons obj rest ih =>
      have hobj := insert_field_values_ok obj fields (h obj (List.mem_cons_self obj rest))
      have hrest := ih (fun o ho f hf => h o (List.mem_cons_of_mem obj ho) f hf)
      simp only [insert_execute_sql, hobj, hrest, List.map_cons]

/-- Witness for C2: a None value on a non-nullable non-pk field raises;
without one, one document per object is inserted. -/
theorem insert_execute_sql_integrity_witness :
    (∃ e, insert_execute_sql [⟨"x", "x", false, false⟩] [[("x", BVal.null)]]
      = Except.error e) ∧
    insert_execute_sql [⟨"x", "x", false, false⟩] [[("x", BVal.int 1)]]
      = Except.ok [[("x", BVal.int 1)]] :=
  ⟨(insert_execute_sql_integrity [⟨"x", "x", false, false⟩] [[("x", BVal.null)]]).1
      ⟨[("x", BVal.null)], List.mem_singleton.mpr rfl,
        ⟨"x", "x", false, false⟩, List.mem_singleton.mpr rfl, rfl, rfl, rfl⟩,
   (insert_execute_sql_integrity [⟨"x", "x", false, false⟩] [[("x", BVal.int 1)]]).2.1
      (by
        intro o ho f hf
        rw [List.mem_singleton] at ho hf
        subst ho
        subst hf
        rintro ⟨h1, h2, h3⟩
        exact BVal.noConfusion h1)⟩

theorem flatten_map_ite {α β : Type} (l : List α) (p : α → Bool) (f : α → List β) :
    (l.map (fun x => if p x then f x else [])).flatten = ((l.filter p).map f).flatten := by
  induction l with
  | nil => rfl
  | cons a rest ih =>
    by_cases hp : p a = true
    · simp [List.filter_cons, hp, ih]
    · simp [List.filter_cons, hp, ih]

/-- C7: the vector-search index check returns exactly the concatenation of
`index.check` over every `VectorSearchIndex` of every checked model,
restricted to the databases where the router allows migrating the model;
non-vector-search indexes contribute no errors. -/
theorem check_vector_search_indexes_spec (models : List CheckedModel) (databases : List String)
    (allow_migrate_model : String → CheckedModel → Bool) :
    check_vector_search_indexes models databases allow_migrate_model =
      (models.map (fun model =>
        ((databases.filter (fun db => allow_migrate_model db model)).map (fun db =>
          ((model.indexes.filter (fun i => i.is_vector_search)).map
            (fun i => i.check db)).flatten)).flatten)).flatten ∧
    ((∀ model ∈ models, ∀ i ∈ model.indexes, i.is_vector_search = false) →
      check_vector_search_indexes models databases allow_migrate_model = []) := by
  constructor
  · unfold check_vector_search_indexes
    induction models with
    | nil => rfl
    | cons m rest ih =>
      simp only [List.map_cons, List.flatten_cons, ih]
      rw [flatten_map_ite]
  · intro h
    unfold check_vector_search_indexes
    rw [List.flatten_eq_nil_iff]
    intro l hl
    rw [List.mem_map] at hl
    obtain ⟨model, hm, rfl⟩ := hl
    rw [List.flatten_eq_nil_iff]
    intro l2 hl2
    rw [List.mem_map] at hl2
    obtain ⟨db, hdb, rfl⟩ := hl2
    by_cases hp : allow_migrate_model db model = true
    · rw [if_pos hp]
      have hfil : model.indexes.filter (fun i => i.is_vector_search) = [] :=
        List.filter_eq_nil_iff.mpr (fun i hi => by simp [h model hm i hi])
      rw [hfil]
      rfl
    · rw [if_neg hp]

/-- Witness for C7: a model whose only index is not a VectorSearchIndex
contributes no errors. -/
theorem check_vector_search_indexes_spec_witness :
    check_vector_search_indexes [⟨[⟨false, fun _ => ["e"]⟩]⟩] ["default"]
      (fun _ _ => true) = [] :=
  (check_vector_search_indexes_spec [⟨[⟨false, fun _ => ["e"]⟩]⟩] ["default"]
      (fun _ _ => true)).2
    (by
      intro m hm i hi
      rw [List.mem_singleton] at hm
      subst hm
      rw [List.mem_singleton] at hi
      subst hi
      rfl)

/-- C4: for a chain whose keys are resolved through embedded models
(every `ref_field` an EmbeddedModelField) followed by its terminal model
field and then trailing JSON key transforms, the compiled left-hand side
is the column MQL string followed by the embedded-model key names joined
with dots in application order, with each trailing JSON key then wrapped
around that string via `$getField` (array-aware for canonical numeric
keys). -/
theorem key_transform_embedded_chain (mql : String) (es : List KeyT) (t : KeyT) (js : List KeyT)
    (he : ∀ e ∈ es, e.ref_is_embedded = true)
    (ht : t.ref_is_embedded = false)
    (hjs : ∀ j ∈ js, j.ref_is_embedded = false) :
    key_transform mql (es ++ t :: js) =
      some ((js.map (fun j => j.key_name)).foldl wrap_json_key
        (BVal.str (mql ++ "." ++ String.intercalate (".")
          (es.map (fun e => e.key_name) ++ [t.key_name])))) ∧
    (∀ r k, is_canonical_digits k = false →
      wrap_json_key r k = BVal.doc [("$getField",
        BVal.doc [("input", r), ("field", BVal.str k)])]) := by
  constructor
  · have hfe : (es ++ t :: js).filter (fun x => x.ref_is_embedded) = es := by
      rw [List.filter_append, List.filter_eq_self.mpr he, List.filter_cons]
      have hjfil : js.filter (fun x => x.ref_is_embedded) = [] :=
        List.filter_eq_nil_iff.mpr (fun j hj => by simp [hjs j hj])
      simp [ht, hjfil]
    have hfj : (es ++ t :: js).filter (fun x => !x.ref_is_embedded) = t :: js := by
      rw [List.filter_append]
      have hefil : es.filter (fun x => !x.ref_is_embedded) = [] :=
        List.filter_eq_nil_iff.mpr (fun e hee => by simp [he e hee])
      have hrest : (t :: js).filter (fun x => !x.ref_is_embedded) = t :: js := by
        refine List.filter_eq_self.mpr ?_
        intro x hx
        rcases List.mem_cons.mp hx with rfl | hx2
        · simp [ht]
        · simp [hjs x hx2]
      rw [hefil, hrest, List.nil_append]
    unfold key_transform preprocess_lhs
    rw [hfe, hfj]
    simp only [List.map_cons]
  · intro r k hk
    simp only [wrap_json_key, hk, Bool.false_eq_true, if_false]

/-- Witness for C4: the chain a.b (embedded) .c (model field) .x (JSON)
compiles to $getField of x over the dotted path. -/
theorem key_transform_embedded_chain_witness :
    key_transform ("$a") [⟨"b", true⟩, ⟨"c", false⟩, ⟨"x", false⟩] =
      some (BVal.doc [("$getField",
        BVal.doc [("input", BVal.str ("$a.b.c")), ("field", BVal.str ("x"))])]) := by
  have h := key_transform_embedded_chain ("$a") [⟨"b", true⟩] ⟨"c", false⟩ [⟨"x", false⟩]
    (by
      intro e hee
      rw [List.mem_singleton] at hee
      subst hee
      rfl)
    rfl
    (by
      intro j hj
      rw [List.mem_singleton] at hj
      subst hj
      rfl)
  have h1 := h.1
  rw [show ([⟨"b", true⟩] ++ ⟨"c", false⟩ :: [⟨"x", false⟩] : List KeyT)
      = [⟨"b", true⟩, ⟨"c", false⟩, ⟨"x", false⟩] from rfl] at h1
  rw [h1]
  simp only [List.map_cons, List.map_nil, List.foldl_cons, List.foldl_nil]
  rw [h.2 _ ("x") (by decide)]
  rfl

theorem lookup_filterMap_not_mem (g : EField → Option (String × BVal))
    (hg : ∀ f p, g f = some p → p.1 = f.attname) :
    ∀ (em : List EField) (key : String), key ∉ em.map (fun f => f.attname) →
      (em.filterMap g).lookup key = none := by
  intro em
  induction em with
  | nil => intro key _; rfl
  | cons a rest ih =>
    intro key hk
    simp only [List.map_cons, List.mem_cons, not_or] at hk
    obtain ⟨hka, hkrest⟩ := hk
    cases hga : g a with
    | none =>
      simp only [List.filterMap_cons, hga]
      exact ih key hkrest
    | some p =>
      obtain ⟨p1, p2⟩ := p
      have hp1 := hg a (p1, p2) hga
      simp only at hp1
      subst hp1
      simp only [List.filterMap_cons, hga, List.lookup_cons]
      rw [show (key == a.attname) = false from beq_eq_false_iff_ne.mpr hka]
      exact ih key hkrest

theorem lookup_filterMap_mem (g : EField → Option (String × BVal))
    (hg : ∀ f p, g f = some p → p.1 = f.attname) (em : List EField)
    (hnd : (em.map (fun f => f.attname)).Nodup) (f : EField) (hf : f ∈ em) :
    (em.filterMap g).lookup f.attname = Option.map Prod.snd (g f) := by
  induction em with
  | nil => cases hf
  | cons a rest ih =>
    simp only [List.map_cons, List.nodup_cons] at hnd
    obtain ⟨hna, hnrest⟩ := hnd
    rcases List.mem_cons.mp hf with rfl | hf2
    · cases hga : g f with
      | none =>
        simp only [List.filterMap_cons, hga]
        exact lookup_filterMap_not_mem g hg rest f.attname hna
      | some p =>
        obtain ⟨p1, p2⟩ := p
        have hp1 := hg f (p1, p2) hga
        simp only at hp1
        subst hp1
        simp only [List.filterMap_cons, hga, List.lookup_cons, beq_self_eq_true]
        rfl
    · have hfa : f.attname ≠ a.attname := by
        intro hEq
        apply hna
        rw [← hEq]
        exact List.mem_map_of_mem (fun x => x.attname) hf2
      cases hga : g a with
      | none =>
        simp only [List.filterMap_cons, hga]
        exact ih hnrest hf2
      | some p =>
        obtain ⟨p1, p2⟩ := p
        have hp1 := hg a (p1, p2) hga
        simp only at hp1
        subst hp1
        simp only [List.filterMap_cons, hga, List.lookup_cons]
        rw [show (f.attname == a.attname) = false from beq_eq_false_iff_ne.mpr hfa]
        exact ih hnrest hf2

/-- C8: when each embedded field's `to_python` inverts its
`get_db_prep_save` on the stored values, `to_python` applied to the
document produced by `get_db_prep_save` yields an instance whose set
attributes are exactly the original instance's saved field values
(primary keys whose prepared value is None excluded), marked as not
adding; and both directions map None to None. -/
theorem embedded_field_roundtrip (em : List EField) (inst : EInstance)
    (hnd : (em.map (fun f => f.attname)).Nodup)
    (hinv : ∀ f ∈ em,
      f.to_python (f.get_db_prep_save (saved_value f inst)) = saved_value f inst) :
    EmbeddedModelField.to_python em (EmbeddedModelField.get_db_prep_save em (some inst)).1 =
      some ⟨em.filterMap (fun f =>
          if f.primary_key && (f.get_db_prep_save (saved_value f inst)).isNull then none
          else some (f.attname, saved_value f inst)), false⟩ ∧
    EmbeddedModelField.to_python em none = none ∧
    (EmbeddedModelField.get_db_prep_save em none).1 = none := by
  refine ⟨?_, rfl, rfl⟩
  have h0 : (EmbeddedModelField.get_db_prep_save em (some inst)).1 =
      some (em.filterMap (fun f =>
        if f.primary_key && (f.get_db_prep_save (saved_value f inst)).isNull then none
        else some (f.attname, f.get_db_prep_save (saved_value f inst)))) := rfl
  rw [h0]
  simp only [EmbeddedModelField.to_python]
  refine congrArg (fun l => some (⟨l, false⟩ : EInstance)) ?_
  have hg : ∀ f p, (fun f2 : EField =>
      if f2.primary_key && (f2.get_db_prep_save (saved_value f2 inst)).isNull then none
      else some (f2.attname, f2.get_db_prep_save (saved_value f2 inst))) f = some p →
      p.1 = f.attname := by
    intro f p h
    by_cases hc : (f.primary_key && (f.get_db_prep_save (saved_value f inst)).isNull) = true
    · simp only [hc, if_true] at h
      cases h
    · simp only [Bool.not_eq_true] at hc
      simp only [hc, Bool.false_eq_true, if_false, Option.some.injEq] at h
      rw [← h]
  apply List.filterMap_congr
  intro f hf
  rw [lookup_filterMap_mem _ hg em hnd f hf]
  by_cases hc : (f.primary_key && (f.get_db_prep_save (saved_value f inst)).isNull) = true
  · simp only [hc, if_true, Option.map_none']
  · simp only [Bool.not_eq_true] at hc
    simp only [hc, Bool.false_eq_true, if_false, Option.map_some']
    rw [hinv f hf]

/-- Witness for C8 with an identity field over an integer attribute. -/
theorem embedded_field_roundtrip_witness :
    EmbeddedModelField.to_python [⟨"a", false, fun v _ => v, fun v => v, fun v => v⟩]
      (EmbeddedModelField.get_db_prep_save [⟨"a", false, fun v _ => v, fun v => v, fun v => v⟩]
        (some ⟨[("a", BVal.int 3)], false⟩)).1 =
      some ⟨[("a", BVal.int 3)], false⟩ := by
  have h := (embedded_field_roundtrip [⟨"a", false, fun v _ => v, fun v => v, fun v => v⟩]
    ⟨[("a", BVal.int 3)], false⟩ (by simp)
    (by
      intro f hf
      rw [List.mem_singleton] at hf
      subst hf
      rfl)).1
  exact h

theorem ordering_loop_eq (standard : Bool) (ts : List OrderTerm) :
    ∀ seen, ordering_loop standard ts seen =
      match resolve_all standard ts with
      | Except.error e => Except.error e
      | Except.ok raw => Except.ok (dedup_first raw seen) := by
  induction ts with
  | nil => intro seen; rfl
  | cons t rest ih =>
    intro seen
    simp only [ordering_loop, resolve_all]
    cases ht : resolve_order_term standard t with
    | error e => rfl
    | ok p =>
      obtain ⟨col, ascending⟩ := p
      cases col with
      | dict => rfl
      | str s =>
        dsimp only
        by_cases hc : strip_dollar s ∈ seen
        · rw [if_pos hc, ih seen]
          cases resolve_all standard rest with
          | error e => rfl
          | ok raw =>
            simp only [dedup_first]
            rw [if_pos hc]
        · rw [if_neg hc, ih (strip_dollar s :: seen)]
          cases resolve_all standard rest with
          | error e => rfl
          | ok raw =>
            simp only [dedup_first]
            rw [if_neg hc]

theorem dedup_first_keys_nodup (raw : List (String × Bool)) :
    ∀ seen, ((dedup_first raw seen).map Prod.fst).Nodup ∧
      ∀ s ∈ (dedup_first raw seen).map Prod.fst, s ∉ seen := by
  induction raw with
  | nil => intro seen; exact ⟨List.nodup_nil, fun s hs => absurd hs (by simp [dedup_first])⟩
  | cons p rest ih =>
    intro seen
    by_cases hc : p.1 ∈ seen
    · simp only [dedup_first, if_pos hc]
      exact ih seen
    · simp only [dedup_first, if_neg hc, List.map_cons, List.nodup_cons]
      obtain ⟨hn, hs⟩ := ih (p.1 :: seen)
      refine ⟨⟨?_, hn⟩, ?_⟩
      · intro hmem
        exact (hs p.1 hmem) (List.mem_cons_self _ _)
      · intro s hsmem
        rcases List.mem_cons.mp hsmem with rfl | h2
        · exact hc
        · intro hseen
          exact (hs s h2) (List.mem_cons_of_mem _ hseen)

theorem resolve_order_term_flip (standard : Bool) (t : OrderTerm) :
    resolve_order_term (!standard) t =
      (resolve_order_term standard t).map (fun p => (p.1, !p.2)) := by
  cases t with
  | random => cases standard <;> rfl
  | expr descending col => cases standard <;> cases descending <;> rfl
  | name s col =>
    cases standard <;> cases hs : s.startsWith ("-") <;>
      simp [resolve_order_term, hs, Except.map]

theorem resolve_all_flip (standard : Bool) (ts : List OrderTerm) :
    resolve_all (!standard) ts =
      (resolve_all standard ts).map (fun l => l.map (fun p => (p.1, !p.2))) := by
  induction ts with
  | nil => rfl
  | cons t rest ih =>
    simp only [resolve_all, resolve_order_term_flip standard t]
    cases resolve_order_term standard t with
    | error e => rfl
    | ok p =>
      obtain ⟨col, ascending⟩ := p
      cases col with
      | dict => rfl
      | str s =>
        rw [ih]
        cases resolve_all standard rest with
        | error e => rfl
        | ok raw => simp [Except.map]

theorem dedup_first_flip (raw : List (String × Bool)) :
    ∀ seen, dedup_first (raw.map (fun p => (p.1, !p.2))) seen =
      (dedup_first raw seen).map (fun p => (p.1, !p.2)) := by
  induction raw with
  | nil => intro seen; rfl
  | cons p rest ih =>
    intro seen
    by_cases hc : p.1 ∈ seen
    · simp only [List.map_cons, dedup_first, if_pos hc]
      exact ih seen
    · simp only [List.map_cons, dedup_first, if_neg hc]
      rw [ih (p.1 :: seen)]

theorem ordering_loop_random_error (standard : Bool) :
    ∀ ts seen, OrderTerm.random ∈ ts →
      ∃ e, ordering_loop standard ts seen = Except.error e := by
  intro ts
  induction ts with
  | nil => intro seen h; cases h
  | cons t rest ih =>
    intro seen h
    rcases List.mem_cons.mp h with rfl | h2
    · exact ⟨CompilerError.notSupported ("Randomized ordering is not supported by MongoDB."), rfl⟩
    · cases ht : resolve_order_term standard t with
      | error e => exact ⟨e, by simp only [ordering_loop, ht]⟩
      | ok p =>
        obtain ⟨col, ascending⟩ := p
        cases col with
        | dict =>
          exact ⟨CompilerError.notSupported ("order_by() expression not supported."),
            by simp only [ordering_loop, ht]⟩
        | str s =>
          by_cases hc : strip_dollar s ∈ seen
          · obtain ⟨e, he⟩ := ih seen h2
            refine ⟨e, ?_⟩
            simp only [ordering_loop, ht]
            rw [if_pos hc]
            exact he
          · obtain ⟨e, he⟩ := ih (strip_dollar s :: seen) h2
            refine ⟨e, ?_⟩
            simp only [ordering_loop, ht]
            rw [if_neg hc, he]

/-- C6: a successful `_get_ordering` returns the resolved pairs with each
column stripped of its leading dollar sign and deduplicated keeping first
occurrences, so column names are pairwise distinct; reversing
`standard_ordering` inverts every ascending flag; and a `?` ordering term
always raises NotSupportedError. -/
theorem get_ordering_spec (q : Query) (pairs : List (String × Bool))
    (hne : selected_ordering q ≠ [])
    (h : _get_ordering q = Except.ok (OrderingResult.columns pairs)) :
    (pairs.map Prod.fst).Nodup ∧
    (∃ raw, resolve_all q.standard_ordering (selected_ordering q) = Except.ok raw ∧
      pairs = dedup_first raw []) ∧
    _get_ordering { q with standard_ordering := !q.standard_ordering } =
      Except.ok (OrderingResult.columns (pairs.map (fun p => (p.1, !p.2)))) ∧
    (∀ q2 : Query, OrderTerm.random ∈ selected_ordering q2 →
      ∃ e, _get_ordering q2 = Except.error e) := by
  have hne2 : (selected_ordering q).isEmpty = false := by
    cases hsel : selected_ordering q with
    | nil => exact absurd hsel hne
    | cons a l => rfl
  simp only [_get_ordering] at h
  rw [hne2] at h
  simp only [Bool.false_eq_true, if_false] at h
  rw [ordering_loop_eq] at h
  cases hra : resolve_all q.standard_ordering (selected_ordering q) with
  | error e =>
    rw [hra] at h
    exact absurd h (by simp)
  | ok raw =>
    rw [hra] at h
    simp only [Except.ok.injEq, OrderingResult.columns.injEq] at h
    subst h
    refine ⟨(dedup_first_keys_nodup raw []).1, ⟨raw, rfl, rfl⟩, ?_, ?_⟩
    · have hsel : selected_ordering { q with standard_ordering := !q.standard_ordering } =
        selected_ordering q := rfl
      simp only [_get_ordering]
      rw [hsel, hne2]
      simp only [Bool.false_eq_true, if_false]
      rw [ordering_loop_eq]
      have hflip : resolve_all (!q.standard_ordering) (selected_ordering q) =
          Except.ok (raw.map (fun p => (p.1, !p.2))) := by
        rw [resolve_all_flip, hra]
        rfl
      rw [hflip]
      dsimp only
      rw [dedup_first_flip raw []]
    · intro q2 hrand
      have hne3 : (selected_ordering q2).isEmpty = false := by
        cases hsel2 : selected_ordering q2 with
        | nil => rw [hsel2] at hrand; cases hrand
        | cons a l => rfl
      obtain ⟨e, he⟩ := ordering_loop_random_error q2.standard_ordering
        (selected_ordering q2) [] hrand
      refine ⟨e, ?_⟩
      simp only [_get_ordering]
      rw [hne3]
      simp only [Bool.false_eq_true, if_false]
      rw [he]

/-- Witness for C6: an ascending `$f` expression ordering on a reversed
query comes out as the stripped column `f` ordered descending. -/
theorem get_ordering_spec_witness :
    _get_ordering ⟨false, false, [], [], WhereMql.fullResultSet, [], true,
        [OrderTerm.expr false (ColMql.str ("$f"))], [], false⟩ =
      Except.ok (OrderingResult.columns [("f", false)]) := by
  have h := get_ordering_spec
    ⟨false, false, [], [], WhereMql.fullResultSet, [], true,
      [OrderTerm.expr false (ColMql.str ("$f"))], [], true⟩
    [("f", true)] (by decide) rfl
  exact h.2.2.1

theorem cursor_iter_aux_spec (collection_name : String) (columns : List MRCol)
    (chunk_size : Nat) (hcs : 0 < chunk_size) :
    ∀ (rows : List (List (String × BVal))) (chunk : List (List (Option BVal))),
      chunk.length < chunk_size →
      ((cursor_iter_aux collection_name columns rows chunk chunk_size).flatten =
        chunk ++ rows.map (fun r => _make_result collection_name r columns)) ∧
      cursor_iter_aux collection_name columns rows chunk chunk_size ≠ [] ∧
      (∀ c ∈ (cursor_iter_aux collection_name columns rows chunk chunk_size).dropLast,
        c.length = chunk_size) ∧
      (∀ c, (cursor_iter_aux collection_name columns rows chunk chunk_size).getLast? = some c →
        c.length < chunk_size) := by
  intro rows
  induction rows with
  | nil =>
    intro chunk hlt
    refine ⟨by simp [cursor_iter_aux], by simp [cursor_iter_aux], ?_, ?_⟩
    · intro c hc
      simp [cursor_iter_aux] at hc
    · intro c hc
      simp only [cursor_iter_aux, List.getLast?_singleton, Option.some.injEq] at hc
      subst hc
      exact hlt
  | cons row rest ih =>
    intro chunk hlt
    simp only [cursor_iter_aux]
    by_cases hlen : (chunk ++ [_make_result collection_name row columns]).length = chunk_size
    · rw [if_pos hlen]
      obtain ⟨ihA, ihB, ihC, ihD⟩ := ih [] (by simpa using hcs)
      refine ⟨?_, by simp, ?_, ?_⟩
      · simp only [List.flatten_cons, ihA, List.nil_append, List.map_cons]
        simp [List.append_assoc]
      · intro c hc
        cases htail : cursor_iter_aux collection_name columns rest [] chunk_size with
        | nil => exact absurd htail ihB
        | cons b l =>
          rw [htail, List.dropLast_cons₂] at hc
          rcases List.mem_cons.mp hc with rfl | h2
          · exact hlen
          · rw [htail] at ihC
            exact ihC c h2
      · intro c hc
        cases htail : cursor_iter_aux collection_name columns rest [] chunk_size with
        | nil => exact absurd htail ihB
        | cons b l =>
          rw [htail, List.getLast?_cons_cons] at hc
          rw [htail] at ihD
          exact ihD c hc
    · rw [if_neg hlen]
      have hlen2 : (chunk ++ [_make_result collection_name row columns]).length
          = chunk.length + 1 := by simp
      have hlt2 : (chunk ++ [_make_result collection_name row columns]).length < chunk_size := by
        rw [hlen2]
        rw [hlen2] at hlen
        omega
      obtain ⟨ihA, ihB, ihC, ihD⟩ := ih _ hlt2
      refine ⟨?_, ihB, ihC, ihD⟩
      rw [ihA]
      simp [List.append_assoc]

/-- C10: for positive chunk_size, `cursor_iter` yields the decoded rows
in cursor order partitioned into consecutive chunks: flattening returns
every row mapped through `_make_result`, every chunk but the last has
length exactly chunk_size, the final chunk has length at most chunk_size
and is always yielded, and an empty cursor yields exactly one empty
chunk. -/
theorem cursor_iter_chunks (collection_name : String) (cursor : List (List (String × BVal)))
    (chunk_size : Nat) (columns : List MRCol) (hcs : 0 < chunk_size) :
    (cursor_iter collection_name cursor chunk_size columns).flatten =
      cursor.map (fun r => _make_result collection_name r columns) ∧
    (∀ c ∈ (cursor_iter collection_name cursor chunk_size columns).dropLast,
      c.length = chunk_size) ∧
    (∀ c, (cursor_iter collection_name cursor chunk_size columns).getLast? = some c →
      c.length ≤ chunk_size) ∧
    cursor_iter collection_name cursor chunk_size columns ≠ [] ∧
    cursor_iter collection_name [] chunk_size columns = [[]] := by
  obtain ⟨hA, hB, hC, hD⟩ :=
    cursor_iter_aux_spec collection_name columns chunk_size hcs cursor [] (by simpa using hcs)
  refine ⟨by simpa using hA, hC, ?_, hB, rfl⟩
  intro c hc
  exact Nat.le_of_lt (hD c hc)

/-- Witness for C10: three rows with chunk size two yield chunks of
lengths two and one whose concatenation is the decoded rows. -/
theorem cursor_iter_chunks_witness :
    (cursor_iter ("t") [[("a", BVal.int 1)], [("a", BVal.int 2)], [("a", BVal.int 3)]] 2
        [⟨"a", none⟩]).flatten =
      [[some (BVal.int 1)], [some (BVal.int 2)], [some (BVal.int 3)]] := by
  have h := (cursor_iter_chunks ("t")
    [[("a", BVal.int 1)], [("a", BVal.int 2)], [("a", BVal.int 3)]] 2 [⟨"a", none⟩]
    (by decide)).1
  exact h
